import Mathlib

/-!
Shallow embedding of `simulate_federated_training` from `src/dp_fl_dashboard.py`.

Python floats are modelled as exact rationals (`ℚ`).  The unseeded global
`random.uniform` source is modelled as an explicit stream `g : ℕ → ℚ` consumed
in draw order: the n-th call to the source returns `g n`.  The simulation
state threads the number of draws made so far, and the result carries the
final draw count, so that the number of calls to the random source made by a
run is visible in the embedding.  `random.uniform(a, b)` returning a value in
`[a, b]` becomes a hypothesis `a ≤ g n ∧ g n ≤ b` on the stream where a claim
needs it.

The division `global_accuracy /= num_clients` raises `ZeroDivisionError` in
Python when `num_clients = 0` (and the round loop body runs); the embedding
returns `none` in exactly that situation (fallible code returns `Option`).
The per-round `time.sleep(0.5)` is a pure delay with no computational
content and is not modelled.
-/

namespace DPFL

/-- One entry of the `results` list built by `simulate_federated_training`:
the Python dict with keys `round`, `global_accuracy`, `epsilon_advanced`,
`epsilon_naive`, `client_accuracies` (source lines 37-43). -/
structure RoundRecord where
  round : ℕ
  global_accuracy : ℚ
  epsilon_advanced : ℚ
  epsilon_naive : ℚ
  client_accuracies : List ℚ
deriving DecidableEq

/-- The loop state of `simulate_federated_training`: the `results`
accumulator, the per-client accuracy tracks (`client_accuracies` in the
source), the running `global_epsilon` and `naive_epsilon`, and the number of
calls made so far to the uniform-random source. -/
@[ext]
structure SimState where
  results : List RoundRecord
  tracks : List (List ℚ)
  global_epsilon : ℚ
  naive_epsilon : ℚ
  draws : ℕ
deriving DecidableEq

/-- Source lines 22-23:
`acc_increment = random.uniform(0.01, 0.03) + (0.005 * rnd) - (0.01 * noise_multiplier)`;
`new_acc = min(client_accuracies[c][-1] + acc_increment, 1.0)`.
`drawIdx` is the position of this `random.uniform` call in the draw stream
and `prev` is `client_accuracies[c][-1]`. -/
def updateClient (g : ℕ → ℚ) (noise_multiplier : ℚ) (rnd : ℕ) (drawIdx : ℕ)
    (prev : ℚ) : ℚ :=
  let acc_increment : ℚ := g drawIdx + (0.005 * (rnd : ℚ)) - (0.01 * noise_multiplier)
  min (prev + acc_increment) 1.0

/-- One iteration of the `for rnd in range(1, num_rounds + 1)` loop body
(source lines 16-45), minus the animation delay.  The per-client loop
`for c in range(num_clients)` draws once per client (draw `st.draws + c` for
client `c`), appends the new value to client `c`'s track, and collects it in
`per_client_acc`; `client_accuracies[c][-1]` is `(st.tracks.getD c []).getLastD 0`
(the tracks list always has length `num_clients`, and every track is
nonempty).  Returns `none` when `num_clients = 0`, where the Python
`global_accuracy /= num_clients` raises `ZeroDivisionError`. -/
def simRound (g : ℕ → ℚ) (noise_multiplier : ℚ) (num_clients : ℕ) (rnd : ℕ)
    (st : SimState) : Option SimState :=
  if num_clients = 0 then none else
  let per_client_acc : List ℚ := (List.range num_clients).map fun c =>
    updateClient g noise_multiplier rnd (st.draws + c) ((st.tracks.getD c []).getLastD 0)
  let global_accuracy : ℚ := per_client_acc.sum / (num_clients : ℚ)
  let eps_increment_adv : ℚ := 0.2 + 0.1 * (rnd : ℚ) - 0.05 * noise_multiplier
  let eps_increment_naive : ℚ := 0.5 + 0.2 * (rnd : ℚ)
  some {
    results := st.results ++ [{
      round := rnd
      global_accuracy := global_accuracy
      epsilon_advanced := st.global_epsilon + max eps_increment_adv 0.1
      epsilon_naive := st.naive_epsilon + eps_increment_naive
      client_accuracies := per_client_acc }]
    tracks := (st.tracks.zip per_client_acc).map fun p => p.1 ++ [p.2]
    global_epsilon := st.global_epsilon + max eps_increment_adv 0.1
    naive_epsilon := st.naive_epsilon + eps_increment_naive
    draws := st.draws + num_clients }

/-- The round loop: run `count` successive rounds starting at round `rnd`. -/
def simRounds (g : ℕ → ℚ) (noise_multiplier : ℚ) (num_clients : ℕ) :
    ℕ → ℕ → SimState → Option SimState
  | _, 0, st => some st
  | rnd, count + 1, st =>
    (simRound g noise_multiplier num_clients rnd st).bind
      (simRounds g noise_multiplier num_clients (rnd + 1) count)

/-- `simulate_federated_training` (source lines 5-47): seeds one accuracy
per client from draws `0 .. num_clients - 1` (line 14,
`client_accuracies = [[random.uniform(0.4, 0.6)] for _ in range(num_clients)]`;
the seed-range hypothesis `0.4 ≤ g c ≤ 0.6` is supplied by claims that need
it), runs rounds `1 .. num_rounds`, and returns the results list, the
per-client accuracy tracks, and the total number of uniform draws made. -/
def simulate_federated_training (g : ℕ → ℚ) (num_clients : ℕ)
    (noise_multiplier : ℚ) (num_rounds : ℕ) :
    Option (List RoundRecord × List (List ℚ) × ℕ) :=
  let init : SimState := {
    results := []
    tracks := (List.range num_clients).map fun c => [g c]
    global_epsilon := 0.0
    naive_epsilon := 0.0
    draws := num_clients }
  (simRounds g noise_multiplier num_clients 1 num_rounds init).map fun st =>
    (st.results, st.tracks, st.draws)

/-- Closed form of client `c`'s accuracy track: entry `0` is the seed draw
`g c`, and entry `r + 1` is the round-`(r+1)` update, whose uniform draw is
draw number `num_clients + r * num_clients + c` of the stream. -/
def trackF (g : ℕ → ℚ) (num_clients : ℕ) (noise_multiplier : ℚ) (c : ℕ) : ℕ → ℚ
  | 0 => g c
  | r + 1 =>
    updateClient g noise_multiplier (r + 1) (num_clients + r * num_clients + c)
      (trackF g num_clients noise_multiplier c r)

/-- Closed form of the running advanced-composition epsilon after `r` rounds. -/
def epsAdvF (noise_multiplier : ℚ) : ℕ → ℚ
  | 0 => 0.0
  | r + 1 => epsAdvF noise_multiplier r +
      max (0.2 + 0.1 * ((r + 1 : ℕ) : ℚ) - 0.05 * noise_multiplier) 0.1

/-- Closed form of the running naive-composition epsilon after `r` rounds. -/
def epsNaiveF : ℕ → ℚ
  | 0 => 0.0
  | r + 1 => epsNaiveF r + (0.5 + 0.2 * ((r + 1 : ℕ) : ℚ))

/-- Closed form of the `RoundRecord` produced for round `r`. -/
def recordF (g : ℕ → ℚ) (num_clients : ℕ) (noise_multiplier : ℚ) (r : ℕ) :
    RoundRecord := {
  round := r
  global_accuracy :=
    ((List.range num_clients).map fun c =>
      trackF g num_clients noise_multiplier c r).sum / (num_clients : ℚ)
  epsilon_advanced := epsAdvF noise_multiplier r
  epsilon_naive := epsNaiveF r
  client_accuracies := (List.range num_clients).map fun c =>
    trackF g num_clients noise_multiplier c r }

/-- Closed form of the loop state after rounds `1 .. k` have run. -/
def stateF (g : ℕ → ℚ) (num_clients : ℕ) (noise_multiplier : ℚ) (k : ℕ) :
    SimState := {
  results := (List.range k).map fun j => recordF g num_clients noise_multiplier (j + 1)
  tracks := (List.range num_clients).map fun c =>
    (List.range (k + 1)).map fun i => trackF g num_clients noise_multiplier c i
  global_epsilon := epsAdvF noise_multiplier k
  naive_epsilon := epsNaiveF k
  draws := num_clients + k * num_clients }

lemma getD_map_range {α : Type _} (F : ℕ → α) (d : α) {c C : ℕ} (hc : c < C) :
    ((List.range C).map F).getD c d = F c := by
  rw [List.getD_eq_getElem?_getD]
  simp [List.getElem?_range, hc]

lemma map_range_succ_snoc {α : Type _} (F : ℕ → α) (n : ℕ) :
    (List.range (n + 1)).map F = (List.range n).map F ++ [F n] := by
  rw [List.range_succ, List.map_append]
  rfl

/-- One round advances the closed-form state by one. -/
lemma simRound_stateF (g : ℕ → ℚ) (C : ℕ) (noise : ℚ) (k : ℕ) (hC : C ≠ 0) :
    simRound g noise C (k + 1) (stateF g C noise k) = some (stateF g C noise (k + 1)) := by
  have hper : ((List.range C).map fun c =>
      updateClient g noise (k + 1) ((stateF g C noise k).draws + c)
        (((stateF g C noise k).tracks.getD c []).getLastD 0)) =
      (List.range C).map fun c => trackF g C noise c (k + 1) := by
    apply List.map_congr_left
    intro c hc
    have hc' : c < C := List.mem_range.mp hc
    show updateClient g noise (k + 1) (C + k * C + c)
        ((((List.range C).map fun c =>
          (List.range (k + 1)).map fun i => trackF g C noise c i).getD c []).getLastD 0) =
      trackF g C noise c (k + 1)
    rw [getD_map_range _ _ hc', map_range_succ_snoc, List.getLastD_concat]
    rfl
  simp only [simRound]
  rw [if_neg hC, hper]
  have htracks : (((stateF g C noise k).tracks).zip
      ((List.range C).map fun c => trackF g C noise c (k + 1))).map
        (fun p => p.1 ++ [p.2]) = (stateF g C noise (k + 1)).tracks := by
    show (((List.range C).map fun c =>
        (List.range (k + 1)).map fun i => trackF g C noise c i).zip
      ((List.range C).map fun c => trackF g C noise c (k + 1))).map
        (fun p => p.1 ++ [p.2]) = _
    rw [List.zip_map', List.map_map]
    apply List.map_congr_left
    intro c _
    show ((List.range (k + 1)).map fun i => trackF g C noise c i) ++
        [trackF g C noise c (k + 1)] =
      (List.range (k + 1 + 1)).map fun i => trackF g C noise c i
    rw [map_range_succ_snoc _ (k + 1)]
  rw [htracks]
  apply congrArg some
  apply SimState.ext
  · exact (map_range_succ_snoc _ _).symm
  · rfl
  · rfl
  · rfl
  · show C + k * C + C = C + (k + 1) * C
    ring

/-- Running `m` rounds starting from the closed-form state after `k` rounds
lands on the closed-form state after `k + m` rounds. -/
lemma simRounds_stateF (g : ℕ → ℚ) (C : ℕ) (noise : ℚ) (hC : C ≠ 0) (m : ℕ) :
    ∀ k : ℕ, simRounds g noise C (k + 1) m (stateF g C noise k) =
      some (stateF g C noise (k + m)) := by
  induction m with
  | zero => intro k; rfl
  | succ m ih =>
    intro k
    show (simRound g noise C (k + 1) (stateF g C noise k)).bind
        (simRounds g noise C (k + 1 + 1) m) = _
    rw [simRound_stateF g C noise k hC, Option.some_bind]
    rw [show k + (m + 1) = (k + 1) + m from by omega]
    exact ih (k + 1)

/-- Master characterization: for a nonzero client count, the simulation
succeeds and every component of its output is given by the closed forms
`recordF` / `trackF`, with `num_clients + num_rounds * num_clients` draws. -/
theorem simulate_eq_closed (g : ℕ → ℚ) (C : ℕ) (noise : ℚ) (R : ℕ) (hC : C ≠ 0) :
    simulate_federated_training g C noise R = some (
      (List.range R).map fun j => recordF g C noise (j + 1),
      (List.range C).map fun c => (List.range (R + 1)).map fun i => trackF g C noise c i,
      C + R * C) := by
  have h0 : SimState.mk [] ((List.range C).map fun c => [g c]) 0.0 0.0 C =
      stateF g C noise 0 := by
    apply SimState.ext
    · rfl
    · apply List.map_congr_left
      intro c _
      rfl
    · rfl
    · rfl
    · show C = C + 0 * C
      ring
  have key := simRounds_stateF g C noise hC R 0
  simp only [Nat.zero_add] at key
  simp only [simulate_federated_training]
  rw [h0, key]
  rfl

/-- With zero clients and at least one round, the first round's
`global_accuracy /= num_clients` fails, so the whole simulation fails. -/
theorem simulate_zero_clients (g : ℕ → ℚ) (noise : ℚ) (R : ℕ) (hR : R ≠ 0) :
    simulate_federated_training g 0 noise R = none := by
  obtain ⟨m, rfl⟩ : ∃ m, R = m + 1 := ⟨R - 1, by omega⟩
  rfl

/-- With zero rounds the loop body never runs: the simulation returns the
empty results list and the freshly seeded tracks. -/
theorem simulate_zero_rounds (g : ℕ → ℚ) (C : ℕ) (noise : ℚ) :
    simulate_federated_training g C noise 0 =
      some ([], (List.range C).map fun c => [g c], C) := rfl

/-- Unpacking the master characterization for a successful run. -/
lemma simulate_components (g : ℕ → ℚ) (C : ℕ) (noise : ℚ) (R : ℕ) (hC : C ≠ 0)
    {records : List RoundRecord} {tracks : List (List ℚ)} {d : ℕ}
    (hrun : simulate_federated_training g C noise R = some (records, tracks, d)) :
    records = ((List.range R).map fun j => recordF g C noise (j + 1)) ∧
    tracks = ((List.range C).map fun c =>
      (List.range (R + 1)).map fun i => trackF g C noise c i) ∧
    d = C + R * C := by
  rw [simulate_eq_closed g C noise R hC] at hrun
  simp only [Option.some.injEq, Prod.mk.injEq] at hrun
  exact ⟨hrun.1.symm, hrun.2.1.symm, hrun.2.2.symm⟩

/-- The advanced-composition running epsilon is the sum of its per-round
increments over rounds `1 .. r`. -/
lemma epsAdvF_eq_sum (noise : ℚ) (r : ℕ) :
    epsAdvF noise r =
      ∑ i in Finset.Icc 1 r, max (0.2 + 0.1 * (i : ℚ) - 0.05 * noise) 0.1 := by
  induction r with
  | zero => norm_num [epsAdvF]
  | succ n ih =>
    rw [Finset.sum_Icc_succ_top (by omega : 1 ≤ n + 1), epsAdvF, ih]

/-- The naive-composition running epsilon is the sum of its per-round
increments over rounds `1 .. r`. -/
lemma epsNaiveF_eq_sum (r : ℕ) :
    epsNaiveF r = ∑ i in Finset.Icc 1 r, (0.5 + 0.2 * (i : ℚ)) := by
  induction r with
  | zero => norm_num [epsNaiveF]
  | succ n ih =>
    rw [Finset.sum_Icc_succ_top (by omega : 1 ≤ n + 1), epsNaiveF, ih]

lemma epsAdvF_lt_succ (noise : ℚ) (r : ℕ) :
    epsAdvF noise r < epsAdvF noise (r + 1) := by
  have h1 : (0.1 : ℚ) ≤ max (0.2 + 0.1 * ((r + 1 : ℕ) : ℚ) - 0.05 * noise) 0.1 :=
    le_max_right _ _
  have h2 : (0 : ℚ) < 0.1 := by norm_num
  show epsAdvF noise r < epsAdvF noise r +
    max (0.2 + 0.1 * ((r + 1 : ℕ) : ℚ) - 0.05 * noise) 0.1
  linarith

lemma epsNaiveF_lt_succ (r : ℕ) : epsNaiveF r < epsNaiveF (r + 1) := by
  have h1 : (0 : ℚ) ≤ ((r + 1 : ℕ) : ℚ) := Nat.cast_nonneg _
  show epsNaiveF r < epsNaiveF r + (0.5 + 0.2 * ((r + 1 : ℕ) : ℚ))
  linarith

/-- Worst-case total decrease of a client accuracy after `r` rounds, when
`0 ≤ noise_multiplier ≤ 3` and all draws are in range: rounds 1, 2 and 3
can lose at most `0.015`, `0.01` and `0.005`, later rounds cannot lose. -/
def slack : ℕ → ℚ
  | 0 => 0
  | 1 => 3 / 200
  | 2 => 5 / 200
  | _ + 3 => 6 / 200

lemma slack_nonneg (r : ℕ) : 0 ≤ slack r := by
  rcases r with _ | _ | _ | m <;> norm_num [slack]

lemma slack_le (r : ℕ) : slack r ≤ 6 / 200 := by
  rcases r with _ | _ | _ | m <;> norm_num [slack]

lemma slack_step (s : ℕ) :
    slack s + 1 / 50 - ((s + 1 : ℕ) : ℚ) / 200 ≤ slack (s + 1) := by
  rcases s with _ | _ | _ | m
  · norm_num [slack]
  · norm_num [slack]
  · norm_num [slack]
  · show slack (m + 3) + 1 / 50 - ((m + 3 + 1 : ℕ) : ℚ) / 200 ≤ slack (m + 3 + 1)
    have h4 : (4 : ℚ) ≤ ((m + 3 + 1 : ℕ) : ℚ) := by
      push_cast
      have : (0 : ℚ) ≤ (m : ℚ) := Nat.cast_nonneg _
      linarith
    show (6 : ℚ) / 200 + 1 / 50 - ((m + 3 + 1 : ℕ) : ℚ) / 200 ≤ 6 / 200
    linarith

/-- Bounds on the closed-form track values: with `0 ≤ noise_multiplier ≤ 3`,
a seed in `[0.4, 0.6]` and all increment draws in `[0.01, 0.03]`, every
track entry stays in `[2/5 - slack r, 1]` (hence in `[37/100, 1]`). -/
lemma trackF_bounds (g : ℕ → ℚ) (C : ℕ) (noise : ℚ) (c : ℕ)
    (hn0 : 0 ≤ noise) (hn3 : noise ≤ 3)
    (hg : 0.4 ≤ g c ∧ g c ≤ 0.6)
    (hinc : ∀ n, C ≤ n → 0.01 ≤ g n ∧ g n ≤ 0.03) :
    ∀ r, 2 / 5 - slack r ≤ trackF g C noise c r ∧ trackF g C noise c r ≤ 1 := by
  intro r
  induction r with
  | zero =>
    constructor
    · show 2 / 5 - slack 0 ≤ g c
      have := hg.1
      norm_num [slack] at this ⊢
      linarith
    · show g c ≤ 1
      have := hg.2
      norm_num at this
      linarith
  | succ s ih =>
    have hdraw := hinc (C + s * C + c) (by omega)
    have hd1 := hdraw.1
    have hd2 := hdraw.2
    norm_num at hd1 hd2
    have hcast : ((s + 1 : ℕ) : ℚ) = (s : ℚ) + 1 := by push_cast; ring
    constructor
    · show 2 / 5 - slack (s + 1) ≤
        min (trackF g C noise c s +
          (g (C + s * C + c) + 0.005 * ((s + 1 : ℕ) : ℚ) - 0.01 * noise)) 1.0
      apply le_min
      · have hstep := slack_step s
        have hlow := ih.1
        norm_num
        linarith
      · have := slack_nonneg (s + 1)
        norm_num
        linarith
    · show min (trackF g C noise c s +
          (g (C + s * C + c) + 0.005 * ((s + 1 : ℕ) : ℚ) - 0.01 * noise)) 1.0 ≤ 1
      exact le_trans (min_le_right _ _) (by norm_num)

/-- Every track value is at most `1`, for any `noise_multiplier` whatsoever:
the seed is at most `0.6` and every later entry is clamped by `min _ 1.0`. -/
lemma trackF_le_one (g : ℕ → ℚ) (C : ℕ) (noise : ℚ) (c : ℕ)
    (hgc : g c ≤ 0.6) : ∀ r, trackF g C noise c r ≤ 1 := by
  intro r
  cases r with
  | zero =>
    show g c ≤ 1
    norm_num at hgc
    linarith
  | succ s =>
    show min (trackF g C noise c s +
        (g (C + s * C + c) + 0.005 * ((s + 1 : ℕ) : ℚ) - 0.01 * noise)) 1.0 ≤ 1
    exact le_trans (min_le_right _ _) (by norm_num)

lemma range_one_eq : List.range 1 = [0] := rfl

lemma range_two_eq : List.range 2 = [0, 1] := rfl

lemma range_three_eq : List.range 3 = [0, 1, 2] := rfl

/-- Fixture: a draw stream that always returns `1/2`. -/
def halfDraws : ℕ → ℚ := fun _ => 1 / 2

/-- Fixture: a draw stream whose seed draw (draw 0, for a one-client run)
is `0.4` and whose increment draws are `0.02`, all inside the stated
uniform intervals. -/
def seededDraws : ℕ → ℚ := fun n => if n = 0 then 2 / 5 else 1 / 50

/-- Fixture: a draw stream whose seed draw is `0.4` and whose increment
draws are `0.01`, all inside the stated uniform intervals. -/
def lowDraws : ℕ → ℚ := fun n => if n = 0 then 2 / 5 else 1 / 100

def wRecords1 : List RoundRecord := [⟨1, 199 / 200, 1 / 4, 7 / 10, [199 / 200]⟩]

def wTracks1 : List (List ℚ) := [[1 / 2, 199 / 200]]

lemma run_half_1 : simulate_federated_training halfDraws 1 1 1 =
    some (wRecords1, wTracks1, 2) := by
  rw [simulate_eq_closed _ _ _ _ one_ne_zero]
  norm_num [halfDraws, wRecords1, wTracks1, recordF, trackF, epsAdvF, epsNaiveF,
    updateClient, range_one_eq, range_two_eq, min_def, max_def]

def wRecords2 : List RoundRecord :=
  [⟨1, 199 / 200, 1 / 4, 7 / 10, [199 / 200]⟩, ⟨2, 1, 3 / 5, 8 / 5, [1]⟩]

def wTracks2 : List (List ℚ) := [[1 / 2, 199 / 200, 1]]

lemma run_half_2 : simulate_federated_training halfDraws 1 1 2 =
    some (wRecords2, wTracks2, 3) := by
  rw [simulate_eq_closed _ _ _ _ one_ne_zero]
  norm_num [halfDraws, wRecords2, wTracks2, recordF, trackF, epsAdvF, epsNaiveF,
    updateClient, range_one_eq, range_two_eq, range_three_eq, min_def, max_def]

def wRecordsS : List RoundRecord := [⟨1, 83 / 200, 1 / 4, 7 / 10, [83 / 200]⟩]

def wTracksS : List (List ℚ) := [[2 / 5, 83 / 200]]

lemma run_seeded_1 : simulate_federated_training seededDraws 1 1 1 =
    some (wRecordsS, wTracksS, 2) := by
  rw [simulate_eq_closed _ _ _ _ one_ne_zero]
  norm_num [seededDraws, wRecordsS, wTracksS, recordF, trackF, epsAdvF, epsNaiveF,
    updateClient, range_one_eq, range_two_eq, min_def, max_def]

/-- C1: for any configuration with `client_count ≥ 1` and `round_count ≥ 1`
and any round `r` in `1 .. round_count`, the `global_accuracy` recorded in
the `RoundRecord` for round `r` equals the arithmetic mean (sum divided by
length) of the `per_client_accuracy` values recorded in that same record. -/
theorem C1_global_accuracy_is_mean (g : ℕ → ℚ) (C : ℕ) (noise : ℚ) (R : ℕ)
    (hC : 1 ≤ C) (hR : 1 ≤ R)
    (records : List RoundRecord) (tracks : List (List ℚ)) (d : ℕ)
    (hrun : simulate_federated_training g C noise R = some (records, tracks, d))
    (r : ℕ) (hr : 1 ≤ r) (hrR : r ≤ R) :
    ∃ rec : RoundRecord, records[r - 1]? = some rec ∧ rec.round = r ∧
      rec.global_accuracy =
        rec.client_accuracies.sum / (rec.client_accuracies.length : ℚ) := by
  obtain ⟨hrec, -, -⟩ := simulate_components g C noise R (by omega) hrun
  subst hrec
  refine ⟨recordF g C noise (r - 1 + 1), ?_, ?_, ?_⟩
  · rw [List.getElem?_map, List.getElem?_range (by omega : r - 1 < R)]
    rfl
  · show r - 1 + 1 = r
    omega
  · show ((List.range C).map fun c => trackF g C noise c (r - 1 + 1)).sum / (C : ℚ) =
      ((List.range C).map fun c => trackF g C noise c (r - 1 + 1)).sum /
        ((((List.range C).map fun c => trackF g C noise c (r - 1 + 1)).length : ℕ) : ℚ)
    rw [List.length_map, List.length_range]

/-- C1 witness: the one-round, one-client run with all draws `1/2`. -/
theorem C1_witness :
    ∃ rec : RoundRecord, wRecords1[0]? = some rec ∧ rec.round = 1 ∧
      rec.global_accuracy =
        rec.client_accuracies.sum / (rec.client_accuracies.length : ℚ) :=
  C1_global_accuracy_is_mean halfDraws 1 1 1 (by norm_num) (by norm_num)
    wRecords1 wTracks1 2 run_half_1 1 (by norm_num) (by norm_num)

/-- C2 counterexample: the claim says the simulation fails whenever
`round_count < 1`, but with `client_count = 1` and `round_count = 0` the
code returns a result (the seeded tracks and an empty results list). -/
theorem C2_counterexample :
    simulate_federated_training halfDraws 1 1 0 ≠ none := by
  rw [simulate_zero_rounds]
  exact Option.some_ne_none _

/-- C2 (amended): the simulation fails — with its single failure kind, the
division by zero in the mean computation, modelled as `none` — exactly when
`client_count < 1` and `round_count ≥ 1`; every other input, however
extreme (any sign or magnitude of `noise_multiplier`), returns a result
without error. -/
theorem C2_failure_iff (g : ℕ → ℚ) (C : ℕ) (noise : ℚ) (R : ℕ) :
    simulate_federated_training g C noise R = none ↔ C < 1 ∧ 1 ≤ R := by
  rcases Nat.eq_zero_or_pos C with hC | hC
  · subst hC
    rcases Nat.eq_zero_or_pos R with hR | hR
    · subst hR
      rw [simulate_zero_rounds]
      constructor
      · intro h
        exact absurd h (Option.some_ne_none _)
      · intro h
        omega
    · rw [simulate_zero_clients g noise R (by omega)]
      constructor
      · intro _
        omega
      · intro _
        rfl
  · rw [simulate_eq_closed g C noise R (by omega)]
    constructor
    · intro h
      exact absurd h (Option.some_ne_none _)
    · intro h
      omega

/-- C3: for every client `c` and round `r` in `1 .. round_count`, the new
accuracy appended to client `c`'s track at round `r` (entry `r` of the
track) equals `min(previous + u + 0.005*r - 0.01*noise_multiplier, 1.0)`,
where `previous` is entry `r - 1` and `u` is that round's uniform draw for
that client (draw `client_count + (r-1)*client_count + c` of the stream);
the only clamp is the upper one at `1.0`, so nothing prevents the value
falling below `0`. -/
theorem C3_track_update (g : ℕ → ℚ) (C : ℕ) (noise : ℚ) (R : ℕ)
    (hC : 1 ≤ C)
    (records : List RoundRecord) (tracks : List (List ℚ)) (d : ℕ)
    (hrun : simulate_federated_training g C noise R = some (records, tracks, d))
    (c : ℕ) (hc : c < C) (r : ℕ) (hr : 1 ≤ r) (hrR : r ≤ R) :
    ∃ track : List ℚ, tracks[c]? = some track ∧
      track[r]? = some (min (track[r - 1]?.getD 0 + g (C + (r - 1) * C + c)
        + 0.005 * (r : ℚ) - 0.01 * noise) 1.0) := by
  obtain ⟨-, htr, -⟩ := simulate_components g C noise R (by omega) hrun
  subst htr
  refine ⟨(List.range (R + 1)).map fun i => trackF g C noise c i, ?_, ?_⟩
  · rw [List.getElem?_map, List.getElem?_range hc]
    rfl
  · obtain ⟨s, rfl⟩ : ∃ s, r = s + 1 := ⟨r - 1, by omega⟩
    simp only [Nat.add_sub_cancel, List.getElem?_map]
    rw [List.getElem?_range (by omega : s + 1 < R + 1),
      List.getElem?_range (by omega : s < R + 1)]
    simp only [Option.map_some', Option.getD_some]
    congr 1
    show min (trackF g C noise c s +
        (g (C + s * C + c) + 0.005 * ((s + 1 : ℕ) : ℚ) - 0.01 * noise)) 1.0 = _
    congr 1
    ring

/-- C3 witness: the one-round, one-client run with all draws `1/2`. -/
theorem C3_witness :
    ∃ track : List ℚ, wTracks1[0]? = some track ∧
      track[1]? = some (min (track[0]?.getD 0 + halfDraws 1
        + 0.005 * ((1 : ℕ) : ℚ) - 0.01 * (1 : ℚ)) 1.0) :=
  C3_track_update halfDraws 1 1 1 (by norm_num) wRecords1 wTracks1 2 run_half_1
    0 (by norm_num) 1 (by norm_num) (by norm_num)

/-- C4: the advanced epsilon recorded at round `r` is the sum over
`i = 1 .. r` of `max(0.2 + 0.1*i - 0.05*noise_multiplier, 0.1)`, and the
naive epsilon recorded at round `r` is the sum over `i = 1 .. r` of
`0.5 + 0.2*i`. -/
theorem C4_epsilon_sums (g : ℕ → ℚ) (C : ℕ) (noise : ℚ) (R : ℕ)
    (hC : 1 ≤ C)
    (records : List RoundRecord) (tracks : List (List ℚ)) (d : ℕ)
    (hrun : simulate_federated_training g C noise R = some (records, tracks, d))
    (r : ℕ) (hr : 1 ≤ r) (hrR : r ≤ R) :
    ∃ rec : RoundRecord, records[r - 1]? = some rec ∧
      rec.epsilon_advanced =
        (∑ i in Finset.Icc 1 r, max (0.2 + 0.1 * (i : ℚ) - 0.05 * noise) 0.1) ∧
      rec.epsilon_naive = ∑ i in Finset.Icc 1 r, (0.5 + 0.2 * (i : ℚ)) := by
  obtain ⟨hrec, -, -⟩ := simulate_components g C noise R (by omega) hrun
  subst hrec
  refine ⟨recordF g C noise (r - 1 + 1), ?_, ?_, ?_⟩
  · rw [List.getElem?_map, List.getElem?_range (by omega : r - 1 < R)]
    rfl
  · show epsAdvF noise (r - 1 + 1) = _
    rw [show r - 1 + 1 = r from by omega]
    exact epsAdvF_eq_sum noise r
  · show epsNaiveF (r - 1 + 1) = _
    rw [show r - 1 + 1 = r from by omega]
    exact epsNaiveF_eq_sum r

/-- C4 witness: the one-round, one-client run with all draws `1/2`. -/
theorem C4_witness :
    ∃ rec : RoundRecord, wRecords1[0]? = some rec ∧
      rec.epsilon_advanced =
        (∑ i in Finset.Icc (1 : ℕ) 1, max (0.2 + 0.1 * (i : ℚ) - 0.05 * (1 : ℚ)) 0.1) ∧
      rec.epsilon_naive = ∑ i in Finset.Icc (1 : ℕ) 1, (0.5 + 0.2 * (i : ℚ)) :=
  C4_epsilon_sums halfDraws 1 1 1 (by norm_num) wRecords1 wTracks1 2 run_half_1
    1 (by norm_num) (by norm_num)

/-- C5: for `noise_multiplier ≥ 0`, both epsilon sequences are strictly
increasing across consecutive returned records. -/
theorem C5_epsilon_strictly_increasing (g : ℕ → ℚ) (C : ℕ) (noise : ℚ) (R : ℕ)
    (hnoise : 0 ≤ noise) (hC : 1 ≤ C) (hR : 1 ≤ R)
    (records : List RoundRecord) (tracks : List (List ℚ)) (d : ℕ)
    (hrun : simulate_federated_training g C noise R = some (records, tracks, d))
    (j : ℕ) (rec rec' : RoundRecord)
    (h1 : records[j]? = some rec) (h2 : records[j + 1]? = some rec') :
    rec.epsilon_advanced < rec'.epsilon_advanced ∧
      rec.epsilon_naive < rec'.epsilon_naive := by
  obtain ⟨hrec, -, -⟩ := simulate_components g C noise R (by omega) hrun
  subst hrec
  have hj1 : j + 1 < R := by
    obtain ⟨hlt, -⟩ := List.getElem?_eq_some.mp h2
    simpa using hlt
  rw [List.getElem?_map, List.getElem?_range (by omega : j < R),
    Option.map_some', Option.some.injEq] at h1
  rw [List.getElem?_map, List.getElem?_range hj1,
    Option.map_some', Option.some.injEq] at h2
  subst h1
  subst h2
  constructor
  · exact epsAdvF_lt_succ noise (j + 1)
  · exact epsNaiveF_lt_succ (j + 1)

/-- C5 witness: the two-round, one-client run with all draws `1/2`. -/
theorem C5_witness :
    ((⟨1, 199 / 200, 1 / 4, 7 / 10, [199 / 200]⟩ : RoundRecord).epsilon_advanced <
      (⟨2, 1, 3 / 5, 8 / 5, [1]⟩ : RoundRecord).epsilon_advanced) ∧
    ((⟨1, 199 / 200, 1 / 4, 7 / 10, [199 / 200]⟩ : RoundRecord).epsilon_naive <
      (⟨2, 1, 3 / 5, 8 / 5, [1]⟩ : RoundRecord).epsilon_naive) :=
  C5_epsilon_strictly_increasing halfDraws 1 1 2 (by norm_num) (by norm_num)
    (by norm_num) wRecords2 wTracks2 3 run_half_2 0
    ⟨1, 199 / 200, 1 / 4, 7 / 10, [199 / 200]⟩ ⟨2, 1, 3 / 5, 8 / 5, [1]⟩
    (by rfl) (by rfl)

/-- C6: a valid run returns exactly `round_count` records whose round
indices are `1 .. round_count` in increasing order, and exactly
`client_count` tracks, each of length `round_count + 1`. -/
theorem C6_result_shapes (g : ℕ → ℚ) (C : ℕ) (noise : ℚ) (R : ℕ)
    (hC : 1 ≤ C) (hR : 1 ≤ R)
    (records : List RoundRecord) (tracks : List (List ℚ)) (d : ℕ)
    (hrun : simulate_federated_training g C noise R = some (records, tracks, d)) :
    records.length = R ∧
      (records.map fun rec => rec.round) = ((List.range R).map fun j => j + 1) ∧
      tracks.length = C ∧ ∀ track ∈ tracks, track.length = R + 1 := by
  obtain ⟨hrec, htr, -⟩ := simulate_components g C noise R (by omega) hrun
  subst hrec
  subst htr
  refine ⟨by simp, ?_, by simp, ?_⟩
  · rw [List.map_map]
    rfl
  · intro track ht
    obtain ⟨c, -, rfl⟩ := List.mem_map.mp ht
    simp

/-- C6 witness: the one-round, one-client run with all draws `1/2`. -/
theorem C6_witness :
    wRecords1.length = 1 ∧
      (wRecords1.map fun rec => rec.round) = ((List.range 1).map fun j => j + 1) ∧
      wTracks1.length = 1 ∧ ∀ track ∈ wTracks1, track.length = 1 + 1 :=
  C6_result_shapes halfDraws 1 1 1 (by norm_num) (by norm_num)
    wRecords1 wTracks1 2 run_half_1

/-- C7: with `1 ≤ client_count`, `1 ≤ round_count`,
`0 ≤ noise_multiplier ≤ 3` and all draws inside their stated uniform
intervals (seed draws in `[0.4, 0.6]`, increment draws in `[0.01, 0.03]`),
every recorded `global_accuracy` lies in `[0, 1]`. -/
theorem C7_global_accuracy_in_unit_interval (g : ℕ → ℚ) (C : ℕ) (noise : ℚ)
    (R : ℕ) (hC : 1 ≤ C) (hR : 1 ≤ R) (hn0 : 0 ≤ noise) (hn3 : noise ≤ 3)
    (hseed : ∀ n, n < C → 0.4 ≤ g n ∧ g n ≤ 0.6)
    (hinc : ∀ n, C ≤ n → 0.01 ≤ g n ∧ g n ≤ 0.03)
    (records : List RoundRecord) (tracks : List (List ℚ)) (d : ℕ)
    (hrun : simulate_federated_training g C noise R = some (records, tracks, d))
    (rec : RoundRecord) (hrec : rec ∈ records) :
    0 ≤ rec.global_accuracy ∧ rec.global_accuracy ≤ 1 := by
  obtain ⟨hrecs, -, -⟩ := simulate_components g C noise R (by omega) hrun
  subst hrecs
  obtain ⟨j, -, rfl⟩ := List.mem_map.mp hrec
  show 0 ≤ ((List.range C).map fun c => trackF g C noise c (j + 1)).sum / (C : ℚ) ∧
    ((List.range C).map fun c => trackF g C noise c (j + 1)).sum / (C : ℚ) ≤ 1
  have hbound : ∀ x ∈ (List.range C).map fun c => trackF g C noise c (j + 1),
      37 / 100 ≤ x ∧ x ≤ 1 := by
    intro x hx
    obtain ⟨c, hcr, rfl⟩ := List.mem_map.mp hx
    have hc : c < C := List.mem_range.mp hcr
    have hb := trackF_bounds g C noise c hn0 hn3 (hseed c hc) hinc (j + 1)
    have hs := slack_le (j + 1)
    exact ⟨by linarith [hb.1], hb.2⟩
  have hup := List.sum_le_card_nsmul
    ((List.range C).map fun c => trackF g C noise c (j + 1)) 1
    (fun x hx => (hbound x hx).2)
  have hlo := List.card_nsmul_le_sum
    ((List.range C).map fun c => trackF g C noise c (j + 1)) (37 / 100)
    (fun x hx => (hbound x hx).1)
  rw [nsmul_eq_mul, List.length_map, List.length_range, mul_one] at hup
  rw [nsmul_eq_mul, List.length_map, List.length_range] at hlo
  have hCpos : (0 : ℚ) < (C : ℚ) := by
    have : (0 : ℕ) < C := by omega
    exact_mod_cast this
  constructor
  · apply div_nonneg _ hCpos.le
    nlinarith
  · rw [div_le_one hCpos]
    exact hup

/-- C7 witness: one client, one round, `noise_multiplier = 1`, seed draw
`0.4`, increment draw `0.02`. -/
theorem C7_witness :
    (0 : ℚ) ≤ (⟨1, 83 / 200, 1 / 4, 7 / 10, [83 / 200]⟩ : RoundRecord).global_accuracy ∧
      (⟨1, 83 / 200, 1 / 4, 7 / 10, [83 / 200]⟩ : RoundRecord).global_accuracy ≤ 1 :=
  C7_global_accuracy_in_unit_interval seededDraws 1 1 1 (by norm_num) (by norm_num)
    (by norm_num) (by norm_num)
    (by
      intro n hn
      have hz : n = 0 := by omega
      subst hz
      norm_num [seededDraws])
    (by
      intro n hn
      have hne : ¬ n = 0 := by omega
      simp only [seededDraws, if_neg hne]
      norm_num)
    wRecordsS wTracksS 2 run_seeded_1 ⟨1, 83 / 200, 1 / 4, 7 / 10, [83 / 200]⟩
    (by rw [wRecordsS]; exact List.mem_singleton.mpr rfl)

/-- C8 counterexample: `noise_multiplier = 100` is positive and the draws
used are inside their stated intervals (seed `0.4`, increment `0.01`), yet
the round-1 entry of the returned track is `-117/200 < 0`, outside `[0, 1]`,
so the claim's `[0, 1]` bound for every positive `noise_multiplier` fails. -/
theorem C8_counterexample :
    (0.4 ≤ lowDraws 0 ∧ lowDraws 0 ≤ 0.6) ∧
    (0.01 ≤ lowDraws 1 ∧ lowDraws 1 ≤ 0.03) ∧
    (0 : ℚ) < 100 ∧
    simulate_federated_training lowDraws 1 100 1 =
      some ([⟨1, -117 / 200, 1 / 10, 7 / 10, [-117 / 200]⟩],
        [[2 / 5, -117 / 200]], 2) ∧
    ((-117 : ℚ) / 200) < 0 := by
  refine ⟨by norm_num [lowDraws], by norm_num [lowDraws], by norm_num, ?_, by norm_num⟩
  rw [simulate_eq_closed _ _ _ _ one_ne_zero]
  norm_num [lowDraws, recordF, trackF, epsAdvF, epsNaiveF, updateClient,
    range_one_eq, range_two_eq, min_def, max_def]

/-- C8 (amended): for any positive `noise_multiplier` and seed draws in
`[0.4, 0.6]`, every entry of every returned track is at most `1`, and the
round-0 seed entry lies in `[0.4, 0.6]`; only the upper clamp at `1.0`
exists, and entries may fall below `0` when the noise term dominates (see
the counterexample). -/
theorem C8_track_entries (g : ℕ → ℚ) (C : ℕ) (noise : ℚ) (R : ℕ)
    (hC : 1 ≤ C) (hnoise : 0 < noise)
    (hseed : ∀ n, n < C → 0.4 ≤ g n ∧ g n ≤ 0.6)
    (records : List RoundRecord) (tracks : List (List ℚ)) (d : ℕ)
    (hrun : simulate_federated_training g C noise R = some (records, tracks, d))
    (track : List ℚ) (ht : track ∈ tracks) :
    (∀ x ∈ track, x ≤ 1) ∧
      ∃ s : ℚ, track[0]? = some s ∧ 0.4 ≤ s ∧ s ≤ 0.6 := by
  obtain ⟨-, htr, -⟩ := simulate_components g C noise R (by omega) hrun
  subst htr
  obtain ⟨c, hcr, rfl⟩ := List.mem_map.mp ht
  have hc : c < C := List.mem_range.mp hcr
  constructor
  · intro x hx
    obtain ⟨i, -, rfl⟩ := List.mem_map.mp hx
    exact trackF_le_one g C noise c (hseed c hc).2 i
  · refine ⟨g c, ?_, (hseed c hc).1, (hseed c hc).2⟩
    rw [List.getElem?_map, List.getElem?_range (by omega : 0 < R + 1)]
    rfl

/-- C8 witness: one client, one round, `noise_multiplier = 1`, seed draw
`0.4`, increment draw `0.02`. -/
theorem C8_witness :
    (∀ x ∈ ([2 / 5, 83 / 200] : List ℚ), x ≤ 1) ∧
      ∃ s : ℚ, ([2 / 5, 83 / 200] : List ℚ)[0]? = some s ∧ 0.4 ≤ s ∧ s ≤ 0.6 :=
  C8_track_entries seededDraws 1 1 1 (by norm_num) (by norm_num)
    (by
      intro n hn
      have hz : n = 0 := by omega
      subst hz
      norm_num [seededDraws])
    wRecordsS wTracksS 2 run_seeded_1 [2 / 5, 83 / 200]
    (by rw [wTracksS]; exact List.mem_singleton.mpr rfl)

/-- C9 counterexample: a full run with `client_count = 1` and
`round_count = 1` makes 2 draws (one seed draw, one increment draw), not
`2 × 1 + 1 × 1 = 3` as the claim states. -/
theorem C9_counterexample :
    (simulate_federated_training halfDraws 1 1 1).map (fun out => out.2.2) =
      some 2 ∧ (2 : ℕ) ≠ 2 * 1 + 1 * 1 := by
  constructor
  · rw [run_half_1]
    rfl
  · decide

/-- C9 (amended): a full run makes exactly
`client_count + round_count × client_count` calls to the uniform-random
source (one seed draw per client, then one draw per client per round); the
draw counter carried by the result is the only effect the embedding tracks
(the per-round animation delay has no computational content). -/
theorem C9_draw_count (g : ℕ → ℚ) (C : ℕ) (noise : ℚ) (R : ℕ)
    (hC : 1 ≤ C) (hR : 1 ≤ R)
    (records : List RoundRecord) (tracks : List (List ℚ)) (d : ℕ)
    (hrun : simulate_federated_training g C noise R = some (records, tracks, d)) :
    d = C + R * C :=
  (simulate_components g C noise R (by omega) hrun).2.2

/-- C9 witness: the one-round, one-client run with all draws `1/2` makes
`1 + 1 × 1 = 2` draws. -/
theorem C9_witness : (2 : ℕ) = 1 + 1 * 1 :=
  C9_draw_count halfDraws 1 1 1 (by norm_num) (by norm_num)
    wRecords1 wTracks1 2 run_half_1

/-- C10: with `client_count ≥ 1` and `round_count = 0` the simulation does
not fail: it returns an empty record sequence together with `client_count`
tracks, each holding exactly one entry, the round-0 seed (which lies in
`[0.4, 0.6]` when the seed draws are in their stated interval). -/
theorem C10_zero_rounds_ok (g : ℕ → ℚ) (C : ℕ) (noise : ℚ)
    (hC : 1 ≤ C) (hseed : ∀ n, n < C → 0.4 ≤ g n ∧ g n ≤ 0.6) :
    ∃ tracks : List (List ℚ),
      simulate_federated_training g C noise 0 = some ([], tracks, C) ∧
      tracks.length = C ∧
      ∀ track ∈ tracks, ∃ s, track = [s] ∧ 0.4 ≤ s ∧ s ≤ 0.6 := by
  refine ⟨(List.range C).map fun c => [g c], simulate_zero_rounds g C noise,
    by simp, ?_⟩
  intro track ht
  obtain ⟨c, hcr, rfl⟩ := List.mem_map.mp ht
  have hc : c < C := List.mem_range.mp hcr
  exact ⟨g c, rfl, (hseed c hc).1, (hseed c hc).2⟩

/-- C10 witness: one client, seed draw `0.4`, zero rounds. -/
theorem C10_witness :
    ∃ tracks : List (List ℚ),
      simulate_federated_training seededDraws 1 1 0 = some ([], tracks, 1) ∧
      tracks.length = 1 ∧
      ∀ track ∈ tracks, ∃ s, track = [s] ∧ 0.4 ≤ s ∧ s ≤ 0.6 :=
  C10_zero_rounds_ok seededDraws 1 1 (by norm_num)
    (by
      intro n hn
      have hz : n = 0 := by omega
      subst hz
      norm_num [seededDraws])

end DPFL
